import Mathlib

/-!
A verification development for a bounded checker of redundant preconditions.

The development shallowly embeds the core of the checker: the restricted
expression evaluator (`eval_expr`), the bounded program executor
(`execBlockF` / `exec_block`), the bounded domain enumerator (`iterInputs`),
the contract runner (`runContract`), the single-precondition redundancy
analyses (`singleRedundantIndices`, `analyzeRedundant`) and the bounded
implication check (`implies_bounded`).

Machine integers are modelled as unbounded `Int` (as in the source language).
Fallible evaluation returns `Except Err`; the executor additionally uses an
explicit fuel parameter, with a totality theorem showing a computable fuel
bound always suffices, so the fuel is an artifact of the embedding only.
-/

/-- Runtime values: integers and booleans (the only constants the checker's
expression language produces). The host language treats booleans as the
integers 0/1 in arithmetic and comparisons, modelled by `Value.toInt`. -/
inductive Value where
  | int (n : Int)
  | bool (b : Bool)
deriving DecidableEq, Repr

/-- Coercion used by arithmetic and comparisons (booleans count as 0/1). -/
def Value.toInt : Value → Int
  | .int n => n
  | .bool b => if b then 1 else 0

/-- Truthiness of a value (`bool(value)` in the source). -/
def Value.truthy : Value → Bool
  | .int n => n != 0
  | .bool b => b

/-- Comparison operators of the expression language. -/
inductive Cop where
  | eq | ne | lt | le | gt | ge
deriving DecidableEq, Repr

/-- The error kinds the evaluator/executor can raise; exactly the exception
types caught per input by the contract runner: `Err.disallowed` models
UnsafeExpressionError, `Err.keyError` an unknown variable, `Err.valueError`
a malformed/unknown statement, `Err.zeroDivision` modulo by zero. -/
inductive Err where
  | disallowed
  | keyError (x : String)
  | valueError
  | zeroDivision
deriving DecidableEq, Repr

/-- A mutable environment: insertion-ordered map from names to values. -/
abbrev Env := List (String × Value)

/-- Environment lookup. -/
def envGet (x : String) : Env → Option Value
  | [] => none
  | (y, v) :: rest => if y = x then some v else envGet x rest

/-- Environment update: overwrite in place or append a new binding. -/
def envSet (x : String) (v : Value) : Env → Env
  | [] => [(x, v)]
  | (y, w) :: rest => if y = x then (y, v) :: rest else (y, w) :: envSet x v rest

/-- Expression syntax trees. `badNode` stands for any syntax-tree node outside
the evaluator's allow-list (function calls, attribute access, ...); the
allow-list walk rejects the whole expression before evaluation whenever one
occurs anywhere in the tree. -/
inductive Expr where
  | const (v : Value)
  | var (x : String)
  | neg (e : Expr)
  | pos (e : Expr)
  | notE (e : Expr)
  | add (a b : Expr)
  | sub (a b : Expr)
  | mul (a b : Expr)
  | mod (a b : Expr)
  | andE (es : List Expr)
  | orE (es : List Expr)
  | cmp (a : Expr) (rest : List (Cop × Expr))
  | badNode

mutual

/-- Does the expression contain a disallowed node anywhere? This models the
allow-list walk over the whole parsed tree, run before any evaluation. -/
def hasBad : Expr → Bool
  | .const _ => false
  | .var _ => false
  | .neg e => hasBad e
  | .pos e => hasBad e
  | .notE e => hasBad e
  | .add a b => hasBad a || hasBad b
  | .sub a b => hasBad a || hasBad b
  | .mul a b => hasBad a || hasBad b
  | .mod a b => hasBad a || hasBad b
  | .andE es => hasBadList es
  | .orE es => hasBadList es
  | .cmp a rest => hasBad a || hasBadChain rest
  | .badNode => true
termination_by structural e => e

def hasBadList : List Expr → Bool
  | [] => false
  | e :: rest => hasBad e || hasBadList rest
termination_by structural es => es

def hasBadChain : List (Cop × Expr) → Bool
  | [] => false
  | (_, e) :: rest => hasBad e || hasBadChain rest
termination_by structural rest => rest

end

/-- One comparison step; mixed int/bool comparisons go through `Value.toInt`
exactly as in the host language. -/
def copHolds : Cop → Value → Value → Bool
  | .eq, a, b => a.toInt == b.toInt
  | .ne, a, b => a.toInt != b.toInt
  | .lt, a, b => a.toInt < b.toInt
  | .le, a, b => a.toInt ≤ b.toInt
  | .gt, a, b => b.toInt < a.toInt
  | .ge, a, b => b.toInt ≤ a.toInt

mutual

/-- The recursive evaluator (`go` in the source): constants, variables, unary
and binary arithmetic, boolean conjunction/disjunction with short-circuit,
and left-to-right comparison chains. Modulo follows floor-division sign
conventions (`Int.fmod`) and guards division by zero. -/
def evalE : Expr → Env → Except Err Value
  | .const v, _ => .ok v
  | .var x, env =>
    match envGet x env with
    | some v => .ok v
    | none => .error (.keyError x)
  | .neg e, env => do
    let v ← evalE e env
    pure (.int (- v.toInt))
  | .pos e, env => do
    let v ← evalE e env
    pure (.int v.toInt)
  | .notE e, env => do
    let v ← evalE e env
    pure (.bool (! v.truthy))
  | .add a b, env => do
    let x ← evalE a env
    let y ← evalE b env
    pure (.int (x.toInt + y.toInt))
  | .sub a b, env => do
    let x ← evalE a env
    let y ← evalE b env
    pure (.int (x.toInt - y.toInt))
  | .mul a b, env => do
    let x ← evalE a env
    let y ← evalE b env
    pure (.int (x.toInt * y.toInt))
  | .mod a b, env => do
    let x ← evalE a env
    let y ← evalE b env
    if y.toInt = 0 then .error .zeroDivision
    else pure (.int (Int.fmod x.toInt y.toInt))
  | .andE es, env => do
    let b ← evalAllB es env
    pure (.bool b)
  | .orE es, env => do
    let b ← evalAnyB es env
    pure (.bool b)
  | .cmp a rest, env => do
    let v ← evalE a env
    let b ← evalChain v rest env
    pure (.bool b)
  | .badNode, _ => .error .disallowed
termination_by structural e _ => e

/-- Conjunction over operand truthiness, short-circuiting at the first falsy
operand (the source's `all` over a generator). -/
def evalAllB : List Expr → Env → Except Err Bool
  | [], _ => .ok true
  | e :: rest, env => do
    let v ← evalE e env
    if v.truthy then evalAllB rest env else pure false
termination_by structural es _ => es

/-- Disjunction over operand truthiness, short-circuiting at the first truthy
operand (the source's `any` over a generator). -/
def evalAnyB : List Expr → Env → Except Err Bool
  | [], _ => .ok false
  | e :: rest, env => do
    let v ← evalE e env
    if v.truthy then pure true else evalAnyB rest env
termination_by structural es _ => es

/-- Comparison chains: each comparand is evaluated once, left to right, and
the chain stops (returning false) at the first failing pair. -/
def evalChain : Value → List (Cop × Expr) → Env → Except Err Bool
  | _, [], _ => .ok true
  | cur, (op, rhs) :: rest, env => do
    let rv ← evalE rhs env
    if copHolds op cur rv then evalChain rv rest env else pure false
termination_by structural _ rest _ => rest

end

/-- The public evaluator: validate the whole tree against the allow-list
first, then evaluate. -/
def eval_expr (e : Expr) (env : Env) : Except Err Value :=
  if hasBad e then .error .disallowed else evalE e env

/-- Evaluate a list of expressions as a conjunction of truthiness checks, in
order, stopping at the first falsy one; the empty list is vacuously true.
This is the shape of every `all(bool(eval_expr(p, env)) for p in ...)` in
the contract runner and the implication checker. -/
def allTruthy : List Expr → Env → Except Err Bool
  | [], _ => .ok true
  | p :: rest, env =>
    match eval_expr p env with
    | .error e => .error e
    | .ok v => if v.truthy then allTruthy rest env else .ok false

/-- Truthy evaluation of a single expression, false on error (used only to
state properties; the operational code distinguishes errors explicitly). -/
def evalTruthy (e : Expr) (inp : Env) : Bool :=
  match eval_expr e inp with
  | .ok v => v.truthy
  | .error _ => false

/-- Statement syntax. `assign` carries the ordered name-to-expression map of
one assignment statement; `Stmt.unknown` stands for a statement record using
none of the three recognized shapes, which the executor rejects with a
value error when it reaches it. -/
inductive Stmt where
  | assign (targets : List (String × Expr))
  | ifS (cond : Expr) (thenB : List Stmt) (elseB : List Stmt)
  | whileS (cond : Expr) (body : List Stmt)
  | unknown

/-- Run the assignments of one `assign` statement in order, threading the
running step total: each target updated costs one step, with no budget
check between targets. -/
def runAssigns : List (String × Expr) → Env → Nat → Except Err (Env × Nat)
  | [], env, steps => .ok (env, steps)
  | (x, e) :: rest, env, steps =>
    match eval_expr e env with
    | .error er => .error er
    | .ok v => runAssigns rest (envSet x v env) (steps + 1)

mutual

/-- One while loop: evaluate the guard; when truthy, charge one step, run the
body (a fresh block with its own step counter starting at zero), add its
steps, and return immediately once the running total strictly exceeds the
budget; when falsy, exit with the total unchanged. The fuel argument is an
artifact of the embedding (the source loops natively) and is consumed once
per call; the totality theorem below shows the computable bound `needB`
always suffices. -/
def execWhileF : Nat → Nat → Expr → List Stmt → Env → Nat → Option (Except Err (Env × Nat))
  | 0, _, _, _, _, _ => none
  | fuel + 1, limit, cond, body, env, steps =>
    match eval_expr cond env with
    | .error e => some (.error e)
    | .ok v =>
      if v.truthy then
        match execBlockF fuel limit body env 0 with
        | none => none
        | some (.error e) => some (.error e)
        | some (.ok (env2, bodySteps)) =>
          let steps2 := steps + 1 + bodySteps
          if steps2 > limit then some (.ok (env2, steps2))
          else execWhileF fuel limit cond body env2 steps2
      else some (.ok (env, steps))
termination_by structural fuel => fuel

/-- One statement, threading the enclosing block's running step total:
assignments charge one step per target; a conditional charges one step for
the branch test plus the steps of the chosen branch (run as a fresh block);
a loop is `execWhileF`; an unrecognized statement raises a value error. -/
def execStmtF : Nat → Nat → Stmt → Env → Nat → Option (Except Err (Env × Nat))
  | 0, _, _, _, _ => none
  | _ + 1, _, .assign ts, env, steps => some (runAssigns ts env steps)
  | fuel + 1, limit, .ifS cond thenB elseB, env, steps =>
    match eval_expr cond env with
    | .error e => some (.error e)
    | .ok v =>
      if v.truthy then
        match execBlockF fuel limit thenB env 0 with
        | none => none
        | some (.error e) => some (.error e)
        | some (.ok (env2, bs)) => some (.ok (env2, steps + 1 + bs))
      else
        match execBlockF fuel limit elseB env 0 with
        | none => none
        | some (.error e) => some (.error e)
        | some (.ok (env2, bs)) => some (.ok (env2, steps + 1 + bs))
  | fuel + 1, limit, .whileS cond body, env, steps =>
    execWhileF fuel limit cond body env steps
  | _ + 1, _, .unknown, _, _ => some (.error .valueError)
termination_by structural fuel => fuel

/-- A block: run the statements in order, accumulating the block-local step
total, and return it as soon as it strictly exceeds the budget after a
statement. -/
def execBlockF : Nat → Nat → List Stmt → Env → Nat → Option (Except Err (Env × Nat))
  | 0, _, _, _, _ => none
  | _ + 1, _, [], env, steps => some (.ok (env, steps))
  | fuel + 1, limit, s :: rest, env, steps =>
    match execStmtF fuel limit s env steps with
    | none => none
    | some (.error e) => some (.error e)
    | some (.ok (env2, steps2)) =>
      if steps2 > limit then some (.ok (env2, steps2))
      else execBlockF fuel limit rest env2 steps2
termination_by structural fuel => fuel

end

mutual

/-- Fuel sufficient to execute one statement under budget `limit`. -/
def needS (limit : Nat) : Stmt → Nat
  | .assign _ => 1
  | .unknown => 1
  | .ifS _ t e => 1 + max (needB limit t) (needB limit e)
  | .whileS _ b => 1 + (limit + 2) * (1 + needB limit b)
termination_by structural s => s

/-- Fuel sufficient to execute a block under budget `limit`. -/
def needB (limit : Nat) : List Stmt → Nat
  | [] => 1
  | s :: rest => 1 + max (needS limit s) (needB limit rest)
termination_by structural block => block

end

/-- A fuel bound sufficient for the executor to run the whole program: every
while loop makes at most `limit + 1` guarded iterations before its local
total exceeds the budget, so a computable amount of fuel is enough. -/
def fuelFor (block : List Stmt) (limit : Nat) : Nat :=
  needB limit block

/-- The bounded executor: run a program block against an environment with the
given step budget, with sufficient fuel. The default branch of `getD` is
dead code by the totality theorem below. -/
def exec_block (program : List Stmt) (env : Env) (limit : Nat) : Except Err (Env × Nat) :=
  (execBlockF (fuelFor program limit) limit program env 0).getD (.error .valueError)

/-- An inclusive integer range for one input variable (`min`/`max` bounds). -/
structure IntRange where
  lo : Int
  hi : Int
deriving DecidableEq, Repr

/-- The integers of an inclusive range, ascending. -/
def rangeValues (lo hi : Int) : List Int :=
  (List.range (hi + 1 - lo).toNat).map (fun k : Nat => lo + (k : Int))

/-- Stable insertion for the key-sort of the input ranges. -/
def insertRange (p : String × IntRange) :
    List (String × IntRange) → List (String × IntRange)
  | [] => [p]
  | q :: rest => if p.1 ≤ q.1 then p :: q :: rest else q :: insertRange p rest

/-- Sort the input ranges by variable name, ascending and stable (the domain
enumerator iterates variables in sorted-name order). -/
def sortRanges : List (String × IntRange) → List (String × IntRange)
  | [] => []
  | p :: rest => insertRange p (sortRanges rest)

/-- Cartesian product of the (already sorted) ranges: the first variable
varies slowest, the last fastest; zero variables yield one empty input. -/
def enumInputs : List (String × IntRange) → List Env
  | [] => [[]]
  | (n, r) :: rest =>
    ((rangeValues r.lo r.hi).map
      (fun v => (enumInputs rest).map (fun e => (n, Value.int v) :: e))).flatten

/-- The domain enumerator: check every range, failing with a value error if
any has `min > max`, then enumerate the inputs in sorted-name product
order. -/
def iterInputs (rs : List (String × IntRange)) : Except Err (List Env) :=
  if rs.any (fun p => p.2.hi < p.2.lo) then .error .valueError
  else .ok (enumInputs (sortRanges rs))

/-- Size of the bounded domain: the product of the range sizes. -/
def numInputs (rs : List (String × IntRange)) : Nat :=
  (rs.map (fun p => (p.2.hi + 1 - p.2.lo).toNat)).prod

/-- Aggregate counts of one bounded run over all enumerated inputs. -/
structure RunResult where
  considered_inputs : Nat
  satisfying_pre : Nat
  violations : Nat
  nontermination : Nat
deriving DecidableEq, Repr

/-- A bounded contract: program, precondition and postcondition conjunctions,
input ranges and step budget. -/
structure Contract where
  program : List Stmt
  pre : List Expr
  post : List Expr
  ranges : List (String × IntRange)
  step_limit : Nat

/-- The seven ways the contract runner's loop body can treat one input. -/
inductive Outcome where
  | preError | preFail | execError | nonterm | postError | postFail | pass
deriving DecidableEq, Repr

/-- Classify one enumerated input, following the runner's control flow: check
the precondition conjunction (an error there is caught as a violation, a
falsy one skips the input), execute the program (an error is a violation, a
step total beyond the budget is nontermination), then check the
postcondition conjunction (error or falsy is a violation). -/
def classify (c : Contract) (inp : Env) : Outcome :=
  match allTruthy c.pre inp with
  | .error _ => .preError
  | .ok false => .preFail
  | .ok true =>
    match exec_block c.program inp c.step_limit with
    | .error _ => .execError
    | .ok (st, steps) =>
      if steps > c.step_limit then .nonterm
      else
        match allTruthy c.post st with
        | .error _ => .postError
        | .ok true => .pass
        | .ok false => .postFail

/-- The runner's loop body: bump the counters for one input according to its
classification. All per-input errors (the caught exception kinds in `Err`)
count as exactly one violation and the sweep continues. -/
def processInput (c : Contract) (acc : RunResult) (inp : Env) : RunResult :=
  match classify c inp with
  | .preError =>
    { acc with considered_inputs := acc.considered_inputs + 1
               violations := acc.violations + 1 }
  | .preFail =>
    { acc with considered_inputs := acc.considered_inputs + 1 }
  | .execError =>
    { acc with considered_inputs := acc.considered_inputs + 1
               satisfying_pre := acc.satisfying_pre + 1
               violations := acc.violations + 1 }
  | .nonterm =>
    { acc with considered_inputs := acc.considered_inputs + 1
               satisfying_pre := acc.satisfying_pre + 1
               nontermination := acc.nontermination + 1 }
  | .postError =>
    { acc with considered_inputs := acc.considered_inputs + 1
               satisfying_pre := acc.satisfying_pre + 1
               violations := acc.violations + 1 }
  | .postFail =>
    { acc with considered_inputs := acc.considered_inputs + 1
               satisfying_pre := acc.satisfying_pre + 1
               violations := acc.violations + 1 }
  | .pass =>
    { acc with considered_inputs := acc.considered_inputs + 1
               satisfying_pre := acc.satisfying_pre + 1 }

/-- The contract runner: enumerate the whole bounded domain and fold the
per-input counter update over it. Only an invalid range aborts the run. -/
def runContract (c : Contract) : Except Err RunResult :=
  match iterInputs c.ranges with
  | .error e => .error e
  | .ok inputs => .ok (inputs.foldl (processInput c) ⟨0, 0, 0, 0⟩)

/-- Did the precondition conjunction evaluate to true on this input? -/
def preTrue (c : Contract) (inp : Env) : Bool :=
  match allTruthy c.pre inp with
  | .ok true => true
  | _ => false

/-- Did the precondition conjunction evaluate to false on this input (the
skipped-for-failing-pre case)? -/
def preFalse (c : Contract) (inp : Env) : Bool :=
  match allTruthy c.pre inp with
  | .ok false => true
  | _ => false

/-- Did evaluating the precondition conjunction raise an error on this
input? -/
def preErr (c : Contract) (inp : Env) : Bool :=
  match allTruthy c.pre inp with
  | .error _ => true
  | _ => false

/-- Number of enumerated inputs skipped for failing the precondition
conjunction. -/
def preFalseCount (c : Contract) : Except Err Nat :=
  match iterInputs c.ranges with
  | .error e => .error e
  | .ok inputs => .ok (inputs.countP (preFalse c))

/-- Did processing this input raise (and catch) an evaluator/executor
error — in its preconditions, its execution, or its postconditions? -/
def inputError (c : Contract) (inp : Env) : Bool :=
  match classify c inp with
  | .preError => true
  | .execError => true
  | .postError => true
  | _ => false

/-- Is this input counted as a violation (a caught error or a falsy
postcondition)? -/
def inputViolation (c : Contract) (inp : Env) : Bool :=
  match classify c inp with
  | .preError => true
  | .execError => true
  | .postError => true
  | .postFail => true
  | _ => false

/-- The redundancy analyses' acceptance test on a contract: the run has zero
violations AND zero nontermination. -/
def holds (c : Contract) : Except Err Bool :=
  match runContract c with
  | .error e => .error e
  | .ok rr => .ok (rr.violations == 0 && rr.nontermination == 0)

/-- The contract with precondition index `i` removed, the others unchanged
and in order. -/
def dropPre (c : Contract) (i : Nat) : Contract :=
  { c with pre := c.pre.eraseIdx i }

/-- Keep the indices passing a fallible test, in order; the first failing
test aborts the collection. -/
def collectIf (f : Nat → Except Err Bool) : List Nat → Except Err (List Nat)
  | [] => .ok []
  | i :: rest =>
    match f i with
    | .error e => .error e
    | .ok b =>
      match collectIf f rest with
      | .error e => .error e
      | .ok tail => .ok (if b then i :: tail else tail)

/-- The single-redundant indices of the group-redundancy report: index `i`
(zero-based) is kept iff the contract with precondition `i` removed holds,
that is has zero violations and zero nontermination. -/
def singleRedundantIndices (c : Contract) : Except Err (List Nat) :=
  collectIf (fun i => holds (dropPre c i)) (List.range c.pre.length)

/-- The single-redundancy list printed by the report command: index `i`
(one-based there) is kept iff the contract with precondition `i` removed has
zero violations, regardless of its nontermination count. -/
def analyzeRedundant (c : Contract) : Except Err (List Nat) :=
  collectIf
    (fun i =>
      match runContract (dropPre c (i - 1)) with
      | .error e => .error e
      | .ok rr => .ok (rr.violations == 0))
    ((List.range c.pre.length).map (· + 1))

/-- The bounded implication sweep over an explicit input list: skip inputs
whose antecedent conjunction is falsy, return false at the first input whose
antecedent holds but whose consequent is falsy, propagate the first
evaluation error reached, and return true when the inputs are exhausted. -/
def impliesOnInputs (ante : List Expr) (conseq : Expr) : List Env → Except Err Bool
  | [] => .ok true
  | env :: rest =>
    match allTruthy ante env with
    | .error e => .error e
    | .ok false => impliesOnInputs ante conseq rest
    | .ok true =>
      match eval_expr conseq env with
      | .error e => .error e
      | .ok v => if v.truthy then impliesOnInputs ante conseq rest else .ok false

/-- The bounded implication check: does the antecedent conjunction imply the
consequent on every input of the bounded domain? -/
def implies_bounded (ante : List Expr) (conseq : Expr)
    (rs : List (String × IntRange)) : Except Err Bool :=
  match iterInputs rs with
  | .error e => .error e
  | .ok inputs => impliesOnInputs ante conseq inputs

/-- Is this input free of evaluation errors for the implication sweep: its
antecedent conjunction evaluates cleanly, and when it is true the consequent
also evaluates cleanly? -/
def cleanInput (ante : List Expr) (conseq : Expr) (inp : Env) : Bool :=
  match allTruthy ante inp with
  | .error _ => false
  | .ok false => true
  | .ok true =>
    match eval_expr conseq inp with
    | .ok _ => true
    | .error _ => false

/-- Does the bounded implication hold at this input: if the antecedent
conjunction evaluates true then the consequent evaluates true? -/
def implHolds (ante : List Expr) (conseq : Expr) (inp : Env) : Bool :=
  match allTruthy ante inp with
  | .ok true =>
    match eval_expr conseq inp with
    | .ok v => v.truthy
    | .error _ => false
  | _ => true

/-- Does this input refute the implication: antecedent conjunction true and
consequent falsy, both evaluated cleanly? -/
def refutes (ante : List Expr) (conseq : Expr) (inp : Env) : Bool :=
  match allTruthy ante inp, eval_expr conseq inp with
  | .ok true, .ok v => !v.truthy
  | _, _ => false

/-- The evaluation error the implication sweep raises at this input, if
any: an error in the antecedent conjunction, or (when the antecedent is
true) an error in the consequent. -/
def errAt (ante : List Expr) (conseq : Expr) (inp : Env) : Option Err :=
  match allTruthy ante inp with
  | .error e => some e
  | .ok false => none
  | .ok true =>
    match eval_expr conseq inp with
    | .error e => some e
    | .ok _ => none

/-- A loop whose guard `0 == 0` never becomes false. -/
def loopForever : Stmt :=
  .whileS (.cmp (.const (.int 0)) [(.eq, .const (.int 0))]) []

/-- A contract whose single precondition `x < 0` masks a nonterminating
program: removing it yields zero violations but nonzero nontermination. -/
def c1ex : Contract :=
  { program := [loopForever]
    pre := [.cmp (.var "x") [(.lt, .const (.int 0))]]
    post := []
    ranges := [("x", ⟨0, 0⟩)]
    step_limit := 1 }

/-- The guard `0 == 1`, false in every environment. -/
def falseGuard : Expr := .cmp (.const (.int 0)) [(.eq, .const (.int 1))]

/-- A single while statement whose guard `0 == 1` is false from the start. -/
def c2prog : List Stmt := [.whileS falseGuard []]

/-- A contract whose precondition contains a disallowed syntax node. -/
def cUnsafeExprPre : Contract :=
  { program := []
    pre := [.badNode]
    post := []
    ranges := [("x", ⟨0, 1⟩)]
    step_limit := 10 }

/-- A contract whose program contains an unrecognized statement shape. -/
def cUnknownStmt : Contract :=
  { program := [.unknown]
    pre := []
    post := []
    ranges := [("x", ⟨0, 0⟩)]
    step_limit := 10 }

/-- A contract whose precondition `1 % 0 == 0` errors on every input. -/
def c4ex : Contract :=
  { program := []
    pre := [.cmp (.mod (.const (.int 1)) (.const (.int 0))) [(.eq, .const (.int 0))]]
    post := []
    ranges := [("x", ⟨0, 0⟩)]
    step_limit := 10 }

/-- The expression `N >= 0`. -/
def nGE0 : Expr := .cmp (.var "N") [(.ge, .const (.int 0))]

/-- The expression `N >= -5`. -/
def nGEm5 : Expr := .cmp (.var "N") [(.ge, .const (.int (-5)))]

/-- The Sub scenario: `x := 0; y := N; while x < N: x := x + 1; y := y - 1`
with domain `N` in `[-5, 10]`, preconditions `N >= 0` and `N >= -5`,
postcondition `y == 0`, step budget 10000. -/
def c7 : Contract :=
  { program :=
      [ .assign [("x", .const (.int 0))]
      , .assign [("y", .var "N")]
      , .whileS (.cmp (.var "x") [(.lt, .var "N")])
          [ .assign [("x", .add (.var "x") (.const (.int 1)))]
          , .assign [("y", .sub (.var "y") (.const (.int 1)))] ] ]
    pre := [nGE0, nGEm5]
    post := [.cmp (.var "y") [(.eq, .const (.int 0))]]
    ranges := [("N", ⟨-5, 10⟩)]
    step_limit := 10000 }

/-- The expression `x >= 0`. -/
def xGE0 : Expr := .cmp (.var "x") [(.ge, .const (.int 0))]

/-- The expression `1 % x == 0`, which errors at `x = 0`. -/
def oneModX : Expr := .cmp (.mod (.const (.int 1)) (.var "x")) [(.eq, .const (.int 0))]

/-! ## Helper lemmas about the evaluator and counters -/

theorem allTruthy_ok_true {l : List Expr} {env : Env} :
    allTruthy l env = .ok true ↔ ∀ p ∈ l, evalTruthy p env = true := by
  induction l with
  | nil => simp [allTruthy]
  | cons p rest ih =>
    cases h : eval_expr p env with
    | error e => simp [allTruthy, h, evalTruthy, List.forall_mem_cons]
    | ok v =>
      by_cases ht : v.truthy = true
      · simp [allTruthy, h, ht, evalTruthy, List.forall_mem_cons, ih]
      · simp only [Bool.not_eq_true] at ht
        simp [allTruthy, h, ht, evalTruthy, List.forall_mem_cons]

theorem allTruthy_ok_true_of_subset {l l2 : List Expr} {env : Env}
    (hsub : l2 ⊆ l) (h : allTruthy l env = .ok true) : allTruthy l2 env = .ok true := by
  rw [allTruthy_ok_true] at h ⊢
  exact fun p hp => h p (hsub hp)

theorem collectIf_mem {f : Nat → Except Err Bool} {l : List Nat} {out : List Nat}
    (h : collectIf f l = .ok out) (i : Nat) :
    i ∈ out ↔ i ∈ l ∧ f i = .ok true := by
  induction l generalizing out with
  | nil =>
    simp only [collectIf] at h
    injection h with h
    subst h
    simp
  | cons j rest ih =>
    cases hj : f j with
    | error e => rw [collectIf, hj] at h; cases h
    | ok b =>
      cases hr : collectIf f rest with
      | error e => rw [collectIf, hj, hr] at h; cases h
      | ok tail =>
        rw [collectIf, hj, hr] at h
        injection h with h
        subst h
        cases b with
        | true =>
          constructor
          · intro hmem
            rcases List.mem_cons.mp hmem with rfl | hmem2
            · exact ⟨List.mem_cons_self _ _, hj⟩
            · obtain ⟨m1, m2⟩ := (ih hr).mp hmem2
              exact ⟨List.mem_cons_of_mem _ m1, m2⟩
          · rintro ⟨hmem, hfi⟩
            rcases List.mem_cons.mp hmem with rfl | hmem2
            · exact List.mem_cons_self _ _
            · exact List.mem_cons_of_mem _ ((ih hr).mpr ⟨hmem2, hfi⟩)
        | false =>
          constructor
          · intro hmem
            obtain ⟨m1, m2⟩ := (ih hr).mp hmem
            exact ⟨List.mem_cons_of_mem _ m1, m2⟩
          · rintro ⟨hmem, hfi⟩
            rcases List.mem_cons.mp hmem with rfl | hmem2
            · rw [hfi] at hj; cases hj
            · exact (ih hr).mpr ⟨hmem2, hfi⟩

theorem processInput_considered (c : Contract) (acc : RunResult) (inp : Env) :
    (processInput c acc inp).considered_inputs = acc.considered_inputs + 1 := by
  unfold processInput
  cases classify c inp <;> rfl

theorem processInput_satPre (c : Contract) (acc : RunResult) (inp : Env) :
    (processInput c acc inp).satisfying_pre
      = acc.satisfying_pre + (if preTrue c inp = true then 1 else 0) := by
  unfold processInput preTrue classify
  cases h1 : allTruthy c.pre inp with
  | error e => simp
  | ok b =>
    cases b with
    | false => simp
    | true =>
      cases h2 : exec_block c.program inp c.step_limit with
      | error e => simp
      | ok p =>
        obtain ⟨st, steps⟩ := p
        by_cases h3 : steps > c.step_limit
        · simp [h3]
        · cases h4 : allTruthy c.post st with
          | error e => simp [h3, h4]
          | ok b2 => cases b2 <;> simp [h3, h4]

theorem foldl_considered (c : Contract) (inputs : List Env) (acc : RunResult) :
    (inputs.foldl (processInput c) acc).considered_inputs
      = acc.considered_inputs + inputs.length := by
  induction inputs generalizing acc with
  | nil => simp
  | cons inp rest ih =>
    rw [List.foldl_cons, ih, processInput_considered]
    simp only [List.length_cons]
    omega

theorem foldl_satPre (c : Contract) (inputs : List Env) (acc : RunResult) :
    (inputs.foldl (processInput c) acc).satisfying_pre
      = acc.satisfying_pre + inputs.countP (preTrue c) := by
  induction inputs generalizing acc with
  | nil => simp
  | cons inp rest ih =>
    rw [List.foldl_cons, ih, processInput_satPre, List.countP_cons]
    by_cases h : preTrue c inp = true
    · simp [h]
      omega
    · simp [h]

theorem count_tri (c : Contract) (inputs : List Env) :
    inputs.countP (preTrue c) + inputs.countP (preFalse c) + inputs.countP (preErr c)
      = inputs.length := by
  induction inputs with
  | nil => simp
  | cons inp rest ih =>
    rw [List.countP_cons, List.countP_cons, List.countP_cons]
    have hone : (if preTrue c inp then 1 else 0) + (if preFalse c inp then 1 else 0)
        + (if preErr c inp then 1 else 0) = 1 := by
      unfold preTrue preFalse preErr
      cases h : allTruthy c.pre inp with
      | error e => simp
      | ok b => cases b <;> simp
    simp only [List.length_cons]
    omega

/-! ## Helper lemmas about the domain enumerator -/

theorem enumInputs_length (rs : List (String × IntRange)) :
    (enumInputs rs).length = numInputs rs := by
  induction rs with
  | nil => rfl
  | cons p rest ih =>
    obtain ⟨n, r⟩ := p
    have h1 : enumInputs ((n, r) :: rest)
        = ((rangeValues r.lo r.hi).map
            (fun v => (enumInputs rest).map (fun e => (n, Value.int v) :: e))).flatten := rfl
    rw [h1, List.length_flatten, List.map_map]
    have h2 : (List.length ∘ fun v => (enumInputs rest).map (fun e => (n, Value.int v) :: e))
        = fun _ => (enumInputs rest).length := by
      funext v
      simp
    rw [h2, List.map_const', List.sum_replicate, smul_eq_mul, ih]
    have h3 : (rangeValues r.lo r.hi).length = (r.hi + 1 - r.lo).toNat := by
      unfold rangeValues
      rw [List.length_map, List.length_range]
    rw [h3]
    simp [numInputs]

theorem insertRange_perm (p : String × IntRange) (l : List (String × IntRange)) :
    (insertRange p l).Perm (p :: l) := by
  induction l with
  | nil => exact List.Perm.refl _
  | cons q rest ih =>
    unfold insertRange
    by_cases h : p.1 ≤ q.1
    · simp only [h, if_true]
      exact List.Perm.refl _
    · simp only [h, if_false]
      exact (List.Perm.cons q ih).trans (List.Perm.swap p q rest)

theorem sortRanges_perm (l : List (String × IntRange)) : (sortRanges l).Perm l := by
  induction l with
  | nil => exact List.Perm.refl _
  | cons p rest ih =>
    exact (insertRange_perm p (sortRanges rest)).trans (List.Perm.cons p ih)

theorem numInputs_sortRanges (rs : List (String × IntRange)) :
    numInputs (sortRanges rs) = numInputs rs := by
  unfold numInputs
  exact ((sortRanges_perm rs).map _).prod_eq

theorem iterInputs_ok_length {rs : List (String × IntRange)} {inputs : List Env}
    (h : iterInputs rs = .ok inputs) : inputs.length = numInputs rs := by
  unfold iterInputs at h
  by_cases hb : rs.any (fun p => p.2.hi < p.2.lo) = true
  · rw [hb] at h; cases h
  · simp only [Bool.not_eq_true] at hb
    rw [hb] at h
    simp only [Bool.false_eq_true, if_false] at h
    injection h with h
    subst h
    rw [enumInputs_length, numInputs_sortRanges]

/-! ## Totality of the bounded executor -/

theorem needS_pos (limit : Nat) (s : Stmt) : 1 ≤ needS limit s := by
  cases s <;> simp [needS]

theorem needB_pos (limit : Nat) (block : List Stmt) : 1 ≤ needB limit block := by
  cases block <;> simp [needB]

theorem exec_isSome (limit : Nat) : ∀ fuel : Nat,
    (∀ cond body env steps, steps ≤ limit →
        (limit + 2 - steps) * (1 + needB limit body) ≤ fuel →
        (execWhileF fuel limit cond body env steps).isSome = true)
  ∧ (∀ s env steps, steps ≤ limit → needS limit s ≤ fuel →
        (execStmtF fuel limit s env steps).isSome = true)
  ∧ (∀ block env steps, steps ≤ limit → needB limit block ≤ fuel →
        (execBlockF fuel limit block env steps).isSome = true) := by
  intro fuel
  induction fuel with
  | zero =>
    refine ⟨?_, ?_, ?_⟩
    · intro cond body env steps h1 h2
      exfalso
      rcases Nat.mul_eq_zero.mp (Nat.le_zero.mp h2) with ha | hb
      · omega
      · omega
    · intro s env steps h1 h2
      exact absurd (le_trans (needS_pos limit s) h2) (by omega)
    · intro block env steps h1 h2
      exact absurd (le_trans (needB_pos limit block) h2) (by omega)
  | succ f ih =>
    obtain ⟨ihW, ihS, ihB⟩ := ih
    have partW : ∀ cond body env steps, steps ≤ limit →
        (limit + 2 - steps) * (1 + needB limit body) ≤ f + 1 →
        (execWhileF (f + 1) limit cond body env steps).isSome = true := by
      intro cond body env steps h1 h2
      have hA : 2 * (1 + needB limit body) ≤ (limit + 2 - steps) * (1 + needB limit body) :=
        Nat.mul_le_mul_right _ (by omega)
      rw [execWhileF]
      cases h3 : eval_expr cond env with
      | error e => rfl
      | ok v =>
        by_cases ht : v.truthy = true
        · simp only [ht, if_true]
          have hbody : (execBlockF f limit body env 0).isSome = true :=
            ihB body env 0 (Nat.zero_le _) (by omega)
          cases hB : execBlockF f limit body env 0 with
          | none => rw [hB] at hbody; cases hbody
          | some r =>
            cases r with
            | error e => rfl
            | ok p =>
              obtain ⟨env2, bodySteps⟩ := p
              simp only
              by_cases h4 : steps + 1 + bodySteps > limit
              · simp only [h4, if_true]
                rfl
              · simp only [h4, if_false]
                have h5 : steps + 1 + bodySteps ≤ limit := by omega
                apply ihW cond body env2 (steps + 1 + bodySteps) h5
                have h6 : (limit + 2 - (steps + 1 + bodySteps)) + 1 ≤ limit + 2 - steps := by
                  omega
                have h7 : (limit + 2 - (steps + 1 + bodySteps)) * (1 + needB limit body)
                    + (1 + needB limit body)
                    ≤ (limit + 2 - steps) * (1 + needB limit body) := by
                  calc (limit + 2 - (steps + 1 + bodySteps)) * (1 + needB limit body)
                      + (1 + needB limit body)
                      = ((limit + 2 - (steps + 1 + bodySteps)) + 1) * (1 + needB limit body) := by
                        rw [Nat.succ_mul]
                    _ ≤ (limit + 2 - steps) * (1 + needB limit body) :=
                        Nat.mul_le_mul_right _ h6
                omega
        · simp only [Bool.not_eq_true] at ht
          simp only [ht, Bool.false_eq_true, if_false]
          rfl
    refine ⟨partW, ?_, ?_⟩
    · intro s env steps h1 h2
      cases s with
      | assign ts => rfl
      | unknown => rfl
      | ifS cond thenB elseB =>
        rw [execStmtF]
        cases h3 : eval_expr cond env with
        | error e => rfl
        | ok v =>
          have hmx1 := Nat.le_max_left (needB limit thenB) (needB limit elseB)
          have hmx2 := Nat.le_max_right (needB limit thenB) (needB limit elseB)
          rw [needS] at h2
          by_cases ht : v.truthy = true
          · simp only [ht, if_true]
            have hbt : (execBlockF f limit thenB env 0).isSome = true :=
              ihB thenB env 0 (Nat.zero_le _) (by omega)
            cases hB : execBlockF f limit thenB env 0 with
            | none => rw [hB] at hbt; cases hbt
            | some r => cases r with
              | error e => rfl
              | ok p => obtain ⟨env2, bs⟩ := p; rfl
          · simp only [Bool.not_eq_true] at ht
            simp only [ht, Bool.false_eq_true, if_false]
            have hbe : (execBlockF f limit elseB env 0).isSome = true :=
              ihB elseB env 0 (Nat.zero_le _) (by omega)
            cases hB : execBlockF f limit elseB env 0 with
            | none => rw [hB] at hbe; cases hbe
            | some r => cases r with
              | error e => rfl
              | ok p => obtain ⟨env2, bs⟩ := p; rfl
      | whileS cond body =>
        rw [execStmtF, needS] at *
        apply ihW cond body env steps h1
        have h6 : (limit + 2 - steps) * (1 + needB limit body)
            ≤ (limit + 2) * (1 + needB limit body) :=
          Nat.mul_le_mul_right _ (by omega)
        omega
    · intro block env steps h1 h2
      cases block with
      | nil => rfl
      | cons s rest =>
        rw [execBlockF, needB] at *
        have hmx1 := Nat.le_max_left (needS limit s) (needB limit rest)
        have hmx2 := Nat.le_max_right (needS limit s) (needB limit rest)
        have hst : (execStmtF f limit s env steps).isSome = true :=
          ihS s env steps h1 (by omega)
        cases hS : execStmtF f limit s env steps with
        | none => rw [hS] at hst; cases hst
        | some r =>
          cases r with
          | error e => rfl
          | ok p =>
            obtain ⟨env2, steps2⟩ := p
            simp only
            by_cases h4 : steps2 > limit
            · simp only [h4, if_true]
              rfl
            · simp only [h4, if_false]
              exact ihB rest env2 steps2 (by omega) (by omega)

theorem execBlockF_total (block : List Stmt) (env : Env) (limit fuel : Nat)
    (h : fuelFor block limit ≤ fuel) :
    (execBlockF fuel limit block env 0).isSome = true :=
  (exec_isSome limit fuel).2.2 block env 0 (Nat.zero_le _) h

/-! ## Helper lemmas about the bounded implication sweep -/

theorem implHolds_nil (conseq : Expr) (inp : Env) :
    implHolds [] conseq inp = evalTruthy conseq inp := rfl

theorem impOn_true_iff (ante : List Expr) (conseq : Expr) (inputs : List Env)
    (hc : ∀ inp ∈ inputs, cleanInput ante conseq inp = true) :
    impliesOnInputs ante conseq inputs = .ok true
      ↔ ∀ inp ∈ inputs, implHolds ante conseq inp = true := by
  induction inputs with
  | nil => simp [impliesOnInputs]
  | cons inp rest ih =>
    have hcin := hc inp (List.mem_cons_self _ _)
    have hcr : ∀ x ∈ rest, cleanInput ante conseq x = true :=
      fun x hx => hc x (List.mem_cons_of_mem _ hx)
    cases h1 : allTruthy ante inp with
    | error e => unfold cleanInput at hcin; rw [h1] at hcin; cases hcin
    | ok b =>
      cases b with
      | false =>
        have himp : implHolds ante conseq inp = true := by
          unfold implHolds; rw [h1]
        simp [impliesOnInputs, h1, List.forall_mem_cons, himp, ih hcr]
      | true =>
        cases h2 : eval_expr conseq inp with
        | error e => unfold cleanInput at hcin; rw [h1, h2] at hcin; cases hcin
        | ok v =>
          by_cases ht : v.truthy = true
          · have himp : implHolds ante conseq inp = true := by
              unfold implHolds; rw [h1, h2]; exact ht
            simp [impliesOnInputs, h1, h2, ht, List.forall_mem_cons, himp, ih hcr]
          · simp only [Bool.not_eq_true] at ht
            have himp : implHolds ante conseq inp = false := by
              unfold implHolds; rw [h1, h2]; exact ht
            simp [impliesOnInputs, h1, h2, ht, List.forall_mem_cons, himp]

theorem impOn_skip (ante : List Expr) (conseq : Expr) (inp : Env) (rest : List Env)
    (h1 : cleanInput ante conseq inp = true) (h2 : implHolds ante conseq inp = true) :
    impliesOnInputs ante conseq (inp :: rest) = impliesOnInputs ante conseq rest := by
  cases ha : allTruthy ante inp with
  | error e => unfold cleanInput at h1; rw [ha] at h1; cases h1
  | ok b =>
    cases b with
    | false => simp [impliesOnInputs, ha]
    | true =>
      cases hcq : eval_expr conseq inp with
      | error e => unfold cleanInput at h1; rw [ha, hcq] at h1; cases h1
      | ok v =>
        unfold implHolds at h2
        rw [ha, hcq] at h2
        simp only at h2
        simp [impliesOnInputs, ha, hcq, h2]

theorem impOn_refutes (ante : List Expr) (conseq : Expr)
    (ps : List Env) (w : Env) (rest : List Env)
    (hp : ∀ inp ∈ ps, cleanInput ante conseq inp = true ∧ implHolds ante conseq inp = true)
    (hw : refutes ante conseq w = true) :
    impliesOnInputs ante conseq (ps ++ w :: rest) = .ok false := by
  induction ps with
  | nil =>
    simp only [List.nil_append]
    unfold refutes at hw
    cases h1 : allTruthy ante w with
    | error e => rw [h1] at hw; cases hw
    | ok b =>
      cases b with
      | false => rw [h1] at hw; cases hw
      | true =>
        cases h2 : eval_expr conseq w with
        | error e => rw [h1, h2] at hw; cases hw
        | ok v =>
          rw [h1, h2] at hw
          simp only [Bool.not_eq_true'] at hw
          simp [impliesOnInputs, h1, h2, hw]
  | cons p ps2 ih =>
    obtain ⟨hc1, hc2⟩ := hp p (List.mem_cons_self _ _)
    rw [List.cons_append, impOn_skip ante conseq p _ hc1 hc2]
    exact ih (fun x hx => hp x (List.mem_cons_of_mem _ hx))

theorem impOn_error (ante : List Expr) (conseq : Expr)
    (ps : List Env) (w : Env) (rest : List Env) (e : Err)
    (hp : ∀ inp ∈ ps, cleanInput ante conseq inp = true ∧ implHolds ante conseq inp = true)
    (hw : errAt ante conseq w = some e) :
    impliesOnInputs ante conseq (ps ++ w :: rest) = .error e := by
  induction ps with
  | nil =>
    simp only [List.nil_append]
    unfold errAt at hw
    cases h1 : allTruthy ante w with
    | error e2 =>
      rw [h1] at hw
      injection hw with hw
      subst hw
      simp [impliesOnInputs, h1]
    | ok b =>
      cases b with
      | false => rw [h1] at hw; cases hw
      | true =>
        cases h2 : eval_expr conseq w with
        | error e2 =>
          rw [h1, h2] at hw
          injection hw with hw
          subst hw
          simp [impliesOnInputs, h1, h2]
        | ok v => rw [h1, h2] at hw; cases hw
  | cons p ps2 ih =>
    obtain ⟨hc1, hc2⟩ := hp p (List.mem_cons_self _ _)
    rw [List.cons_append, impOn_skip ante conseq p _ hc1 hc2]
    exact ih (fun x hx => hp x (List.mem_cons_of_mem _ hx))

/-! ## The claims -/

/-- C1, counterexample: the claim says the report's single-redundant indices
contain every index whose removal yields zero violations regardless of the
nontermination count. In `c1ex`, removing the only precondition yields zero
violations but one nontermination, and the report's single-redundant index
list is empty — index 0 is missing despite its zero-violation removal. -/
theorem C1_counterexample :
    runContract (dropPre c1ex 0)
        = .ok { considered_inputs := 1, satisfying_pre := 1,
                violations := 0, nontermination := 1 }
      ∧ singleRedundantIndices c1ex = .ok [] :=
  ⟨rfl, rfl⟩

/-- C1, amended: the printed single-redundancy report keeps (one-based) index
`i + 1` iff removing precondition `i` yields zero violations, tolerating
nontermination; but the `single_redundant_indices` of the group-redundancy
report keep (zero-based) index `i` iff removing precondition `i` yields zero
violations AND zero nontermination. -/
theorem C1_amended (c : Contract) (single redund : List Nat)
    (h1 : singleRedundantIndices c = .ok single)
    (h2 : analyzeRedundant c = .ok redund) (i : Nat) :
    (i ∈ single ↔ i < c.pre.length
        ∧ ∃ rr, runContract (dropPre c i) = .ok rr
            ∧ rr.violations = 0 ∧ rr.nontermination = 0)
  ∧ (i + 1 ∈ redund ↔ i < c.pre.length
        ∧ ∃ rr, runContract (dropPre c i) = .ok rr ∧ rr.violations = 0) := by
  have hHolds : ∀ c2 : Contract, (holds c2 = .ok true
      ↔ ∃ rr, runContract c2 = .ok rr ∧ rr.violations = 0 ∧ rr.nontermination = 0) := by
    intro c2
    unfold holds
    cases h : runContract c2 with
    | error e => simp
    | ok rr => simp [Bool.and_eq_true, beq_iff_eq]
  constructor
  · rw [collectIf_mem h1 i]
    simp only [List.mem_range, hHolds]
  · rw [collectIf_mem h2 (i + 1)]
    simp only [List.mem_map, List.mem_range, Nat.add_sub_cancel]
    cases h : runContract (dropPre c i) with
    | error e => simp [h]
    | ok rr => simp [h, beq_iff_eq]

/-- C1, witness for the amended theorem at the Sub scenario contract. -/
theorem C1_witness :
    ((1 : Nat) ∈ [1] ↔ 1 < c7.pre.length
        ∧ ∃ rr, runContract (dropPre c7 1) = .ok rr
            ∧ rr.violations = 0 ∧ rr.nontermination = 0)
  ∧ ((1 : Nat) + 1 ∈ [2] ↔ 1 < c7.pre.length
        ∧ ∃ rr, runContract (dropPre c7 1) = .ok rr ∧ rr.violations = 0) :=
  C1_amended c7 [1] [2] rfl rfl 1

/-- C2, counterexample: the claim says a while statement whose guard is
initially false still adds exactly one step (for the final false test); the
executor charges zero steps in that case. -/
theorem C2_counterexample :
    exec_block c2prog [] 10 = .ok ([], 0)
      ∧ ¬ exec_block c2prog [] 10 = .ok ([], 1) := by
  refine ⟨rfl, fun h => ?_⟩
  rw [show exec_block c2prog [] 10 = Except.ok (([], 0) : Env × Nat) from rfl] at h
  simp at h

/-- C2, amended: a while statement charges one step per loop-guard test that
evaluates true plus the steps of each body execution; the final false test
charges no step, so with an initially false guard the statement adds exactly
zero steps. -/
theorem C2_amended (cond : Expr) (body : List Stmt) (env : Env)
    (limit steps fuel : Nat) (v : Value)
    (hv : eval_expr cond env = .ok v) (ht : v.truthy = false) (hf : 2 ≤ fuel) :
    execStmtF fuel limit (.whileS cond body) env steps = some (.ok (env, steps)) := by
  obtain ⟨f, rfl⟩ : ∃ f, fuel = f + 1 + 1 := ⟨fuel - 2, by omega⟩
  rw [execStmtF, execWhileF, hv]
  simp [ht]

/-- C2, witness: the single falsy-guard loop of `c2prog` adds zero steps. -/
theorem C2_witness :
    execStmtF 5 10 (.whileS falseGuard []) [] 0 = some (.ok ([], 0)) :=
  C2_amended falseGuard [] [] 10 0 5 (.bool false) rfl rfl (by omega)

/-- C3, counterexample: the claim says a contract whose precondition text has
disallowed syntax, or whose program has an unknown statement shape, makes
the whole analysis fail with no RunResult; the runner instead catches those
errors per input, counts them as violations, and produces a full report. -/
theorem C3_counterexample :
    runContract cUnsafeExprPre
        = .ok { considered_inputs := 2, satisfying_pre := 0,
                violations := 2, nontermination := 0 }
      ∧ runContract cUnknownStmt
        = .ok { considered_inputs := 1, satisfying_pre := 1,
                violations := 1, nontermination := 0 } :=
  ⟨rfl, rfl⟩

/-- C3, amended: disallowed expression syntax and unknown statement shapes
surface during per-input evaluation, are caught there and counted as
violations; whenever every input range is valid the analysis always produces
a complete RunResult covering the whole bounded domain, whatever the
expressions and statements contain. Only configuration errors (such as an
invalid range) abort the analysis with no report. -/
theorem C3_amended (c : Contract)
    (h : c.ranges.all (fun p => p.2.lo ≤ p.2.hi) = true) :
    ∃ rr, runContract c = .ok rr ∧ rr.considered_inputs = numInputs c.ranges := by
  have hany : c.ranges.any (fun p => p.2.hi < p.2.lo) = false := by
    rw [List.any_eq_false]
    intro p hp
    have hle := List.all_eq_true.mp h p hp
    simp only [decide_eq_true_eq] at hle ⊢
    omega
  unfold runContract iterInputs
  rw [hany]
  simp only [Bool.false_eq_true, if_false]
  refine ⟨_, rfl, ?_⟩
  rw [foldl_considered, enumInputs_length, numInputs_sortRanges]
  show 0 + numInputs c.ranges = numInputs c.ranges
  omega

/-- C3, witness: the unsafe-precondition contract still yields a full
RunResult. -/
theorem C3_witness :
    ∃ rr, runContract cUnsafeExprPre = .ok rr
      ∧ rr.considered_inputs = numInputs cUnsafeExprPre.ranges :=
  C3_amended cUnsafeExprPre (by decide)

/-- C4, counterexample: the claim's identity `satisfying_pre + (inputs
skipped for failing pre) = considered_inputs` fails when a precondition
errors: in `c4ex` the single input is neither satisfying nor skipped for a
falsy precondition (it is counted as a violation), so 0 + 0 is not 1. -/
theorem C4_counterexample :
    runContract c4ex
        = .ok { considered_inputs := 1, satisfying_pre := 0,
                violations := 1, nontermination := 0 }
      ∧ preFalseCount c4ex = .ok 0
      ∧ 0 + 0 ≠ 1 :=
  ⟨rfl, rfl, by omega⟩

/-- C4, amended: the satisfying count plus the inputs skipped for a falsy
precondition conjunction plus the inputs whose precondition evaluation
errored equals the considered count, and the considered count is the size of
the bounded domain; the claim's two-term identity holds exactly when no
precondition evaluation errors. -/
theorem C4_amended (c : Contract) (inputs : List Env) (rr : RunResult)
    (hi : iterInputs c.ranges = .ok inputs) (hr : runContract c = .ok rr) :
    rr.satisfying_pre + inputs.countP (preFalse c) + inputs.countP (preErr c)
        = rr.considered_inputs
      ∧ rr.considered_inputs = numInputs c.ranges := by
  unfold runContract at hr
  rw [hi] at hr
  injection hr with hr
  subst hr
  constructor
  · rw [foldl_satPre, foldl_considered]
    have h3 := count_tri c inputs
    show 0 + inputs.countP (preTrue c) + inputs.countP (preFalse c)
        + inputs.countP (preErr c) = 0 + inputs.length
    omega
  · rw [foldl_considered]
    have h4 := iterInputs_ok_length hi
    show 0 + inputs.length = numInputs c.ranges
    omega

/-- C4, witness for the amended identity on `c1ex`, whose single enumerated
input fails the precondition. -/
theorem C4_witness :
    ((⟨1, 0, 0, 0⟩ : RunResult)).satisfying_pre
        + [[("x", Value.int 0)]].countP (preFalse c1ex)
        + [[("x", Value.int 0)]].countP (preErr c1ex)
        = ((⟨1, 0, 0, 0⟩ : RunResult)).considered_inputs
      ∧ ((⟨1, 0, 0, 0⟩ : RunResult)).considered_inputs = numInputs c1ex.ranges :=
  C4_amended c1ex [[("x", Value.int 0)]] ⟨1, 0, 0, 0⟩ rfl rfl

/-- C5: the bounded executor is total — for every program, environment and
step budget, any fuel at least the computable bound `fuelFor` makes
`execBlockF` return a result (never the fuel-exhaustion marker), even for a
loop whose guard never becomes false, because each loop iteration strictly
increases its block's running total and execution stops as soon as the total
strictly exceeds the budget. -/
theorem C5_executor_total (block : List Stmt) (env : Env) (limit fuel : Nat)
    (h : fuelFor block limit ≤ fuel) :
    (execBlockF fuel limit block env 0).isSome = true :=
  execBlockF_total block env limit fuel h

/-- C5, witness: an infinite loop under budget 5 still returns. -/
theorem C5_witness : (execBlockF 16 5 [loopForever] [] 0).isSome = true :=
  C5_executor_total [loopForever] [] 5 16 (by decide)

/-- C6: per-input error tolerance. First, with a valid domain the runner
always returns a RunResult covering the whole enumeration; second, any input
whose processing raises an evaluator/executor error (in its preconditions,
its execution, or its postconditions) adds exactly one violation and one
considered input, leaves nontermination unchanged, and the sweep goes on. -/
theorem C6_error_tolerance :
    (∀ (c : Contract) (inputs : List Env), iterInputs c.ranges = .ok inputs →
        ∃ rr, runContract c = .ok rr ∧ rr.considered_inputs = inputs.length)
  ∧ (∀ (c : Contract) (acc : RunResult) (inp : Env), inputError c inp = true →
        (processInput c acc inp).violations = acc.violations + 1
          ∧ (processInput c acc inp).considered_inputs = acc.considered_inputs + 1
          ∧ (processInput c acc inp).nontermination = acc.nontermination) := by
  constructor
  · intro c inputs h
    unfold runContract
    rw [h]
    refine ⟨_, rfl, ?_⟩
    rw [foldl_considered]
    show 0 + inputs.length = inputs.length
    omega
  · intro c acc inp h
    unfold inputError at h
    unfold processInput
    cases hc : classify c inp <;> rw [hc] at h <;> simp at h <;> simp

/-- C6, witness: the unsafe-precondition error at one input of
`cUnsafeExprPre` is counted as exactly one violation. -/
theorem C6_witness :
    (processInput cUnsafeExprPre ⟨0, 0, 0, 0⟩ [("x", Value.int 0)]).violations
        = ((⟨0, 0, 0, 0⟩ : RunResult)).violations + 1
      ∧ (processInput cUnsafeExprPre ⟨0, 0, 0, 0⟩ [("x", Value.int 0)]).considered_inputs
        = ((⟨0, 0, 0, 0⟩ : RunResult)).considered_inputs + 1
      ∧ (processInput cUnsafeExprPre ⟨0, 0, 0, 0⟩ [("x", Value.int 0)]).nontermination
        = ((⟨0, 0, 0, 0⟩ : RunResult)).nontermination :=
  C6_error_tolerance.2 cUnsafeExprPre ⟨0, 0, 0, 0⟩ [("x", Value.int 0)] rfl

/-- C7: the concrete Sub scenario. The base run has 16 considered inputs, 11
satisfying the preconditions, zero violations and zero nontermination;
removing precondition index 1 (`N >= -5`) alone still gives zero violations;
removing precondition index 0 (`N >= 0`) alone gives violations at exactly
the five inputs `N` in `[-5, -1]`; hence the single-redundant index set is
`{1}` and index 0 is needed. -/
theorem C7_sub_scenario :
    runContract c7
        = .ok { considered_inputs := 16, satisfying_pre := 11,
                violations := 0, nontermination := 0 }
      ∧ runContract (dropPre c7 1)
        = .ok { considered_inputs := 16, satisfying_pre := 11,
                violations := 0, nontermination := 0 }
      ∧ runContract (dropPre c7 0)
        = .ok { considered_inputs := 16, satisfying_pre := 16,
                violations := 5, nontermination := 0 }
      ∧ (enumInputs (sortRanges c7.ranges)).filter (inputViolation (dropPre c7 0))
        = [[("N", Value.int (-5))], [("N", Value.int (-4))], [("N", Value.int (-3))],
           [("N", Value.int (-2))], [("N", Value.int (-1))]]
      ∧ singleRedundantIndices c7 = .ok [1]
      ∧ analyzeRedundant c7 = .ok [2] :=
  ⟨rfl, rfl, rfl, rfl, rfl, rfl⟩

/-- C8: bounded implication semantics. When every enumerated input evaluates
cleanly, `implies_bounded` is true iff on every input where all antecedents
evaluate true the consequent also evaluates true; it returns false as soon
as the enumeration reaches a refuting input, whatever inputs come later; and
with an empty antecedent list it is true iff the consequent evaluates true
on every input of the domain. -/
theorem C8_implies_bounded_semantics :
    (∀ (ante : List Expr) (conseq : Expr) (rs : List (String × IntRange))
        (inputs : List Env), iterInputs rs = .ok inputs →
        (∀ inp ∈ inputs, cleanInput ante conseq inp = true) →
        (implies_bounded ante conseq rs = .ok true
          ↔ ∀ inp ∈ inputs, implHolds ante conseq inp = true))
  ∧ (∀ (ante : List Expr) (conseq : Expr) (rs : List (String × IntRange))
        (ps : List Env) (w : Env) (rest : List Env),
        iterInputs rs = .ok (ps ++ w :: rest) →
        (∀ inp ∈ ps, cleanInput ante conseq inp = true
          ∧ implHolds ante conseq inp = true) →
        refutes ante conseq w = true →
        implies_bounded ante conseq rs = .ok false)
  ∧ (∀ (conseq : Expr) (rs : List (String × IntRange)) (inputs : List Env),
        iterInputs rs = .ok inputs →
        (∀ inp ∈ inputs, cleanInput [] conseq inp = true) →
        (implies_bounded [] conseq rs = .ok true
          ↔ ∀ inp ∈ inputs, evalTruthy conseq inp = true)) := by
  refine ⟨?_, ?_, ?_⟩
  · intro ante conseq rs inputs hio hc
    unfold implies_bounded
    rw [hio]
    exact impOn_true_iff ante conseq inputs hc
  · intro ante conseq rs ps w rest hio hp hw
    unfold implies_bounded
    rw [hio]
    exact impOn_refutes ante conseq ps w rest hp hw
  · intro conseq rs inputs hio hc
    unfold implies_bounded
    rw [hio, impOn_true_iff [] conseq inputs hc]
    simp only [implHolds_nil]

/-- C8, witness: over `N` in `[-5, -4]`, the antecedent `N >= -5` does not
boundedly imply `N >= 0`; the sweep refutes it at its first input. -/
theorem C8_witness :
    implies_bounded [nGEm5] nGE0 [("N", ⟨-5, -4⟩)] = .ok false :=
  C8_implies_bounded_semantics.2.1 [nGEm5] nGE0 [("N", ⟨-5, -4⟩)]
    [] [("N", Value.int (-5))] [[("N", Value.int (-4))]] (by rfl) (by simp) rfl

/-- C9: monotonicity of precondition removal — for any fixed contract, the
satisfying-precondition count of the run with precondition `i` removed is at
least the satisfying-precondition count of the original run. -/
theorem C9_monotonicity (c : Contract) (i : Nat) (rr rr2 : RunResult)
    (h : runContract c = .ok rr) (h2 : runContract (dropPre c i) = .ok rr2) :
    rr.satisfying_pre ≤ rr2.satisfying_pre := by
  unfold runContract at h h2
  cases hio : iterInputs c.ranges with
  | error e => rw [hio] at h; cases h
  | ok inputs =>
    rw [hio] at h
    have hio2 : iterInputs (dropPre c i).ranges = .ok inputs := hio
    rw [hio2] at h2
    injection h with h
    injection h2 with h2
    subst h
    subst h2
    rw [foldl_satPre, foldl_satPre]
    have hmono : ∀ inp ∈ inputs, preTrue c inp = true → preTrue (dropPre c i) inp = true := by
      intro inp _ hp
      unfold preTrue at hp ⊢
      cases ha : allTruthy c.pre inp with
      | error e => rw [ha] at hp; cases hp
      | ok b =>
        cases b with
        | false => rw [ha] at hp; cases hp
        | true =>
          have hsub : (dropPre c i).pre ⊆ c.pre := by
            show c.pre.eraseIdx i ⊆ c.pre
            exact (List.eraseIdx_sublist c.pre i).subset
          rw [allTruthy_ok_true_of_subset hsub ha]
    have hcount := List.countP_mono_left hmono
    show 0 + inputs.countP (preTrue c) ≤ 0 + inputs.countP (preTrue (dropPre c i))
    omega

/-- C9, witness: removing precondition 0 of the Sub scenario raises the
satisfying count from 11 to 16. -/
theorem C9_witness :
    ((⟨16, 11, 0, 0⟩ : RunResult)).satisfying_pre
      ≤ ((⟨16, 16, 5, 0⟩ : RunResult)).satisfying_pre :=
  C9_monotonicity c7 0 ⟨16, 11, 0, 0⟩ ⟨16, 16, 5, 0⟩ rfl rfl

/-- C10: `implies_bounded` does not tolerate per-input evaluation errors —
when the enumeration reaches an input whose antecedent conjunction (or,
with the antecedent true, whose consequent) raises an error before any
refuting input, the error propagates out of the implication check; by
contrast the contract runner returns a result whenever its domain is
valid, because it catches such errors per input. -/
theorem C10_implies_bounded_error :
    (∀ (ante : List Expr) (conseq : Expr) (rs : List (String × IntRange))
        (ps : List Env) (w : Env) (rest : List Env) (e : Err),
        iterInputs rs = .ok (ps ++ w :: rest) →
        (∀ inp ∈ ps, cleanInput ante conseq inp = true
          ∧ implHolds ante conseq inp = true) →
        errAt ante conseq w = some e →
        implies_bounded ante conseq rs = .error e)
  ∧ (∀ (c : Contract) (inputs : List Env), iterInputs c.ranges = .ok inputs →
        ∃ rr, runContract c = .ok rr) := by
  constructor
  · intro ante conseq rs ps w rest e hio hp hw
    unfold implies_bounded
    rw [hio]
    exact impOn_error ante conseq ps w rest e hp hw
  · intro c inputs h
    unfold runContract
    rw [h]
    exact ⟨_, rfl⟩

/-- C10, witness: over `x` in `[0, 1]` with antecedent `x >= 0`, the
consequent `1 % x == 0` raises a modulo-by-zero error at the first input
`x = 0`, and `implies_bounded` propagates it. -/
theorem C10_witness :
    implies_bounded [xGE0] oneModX [("x", ⟨0, 1⟩)] = .error .zeroDivision :=
  C10_implies_bounded_error.1 [xGE0] oneModX [("x", ⟨0, 1⟩)]
    [] [("x", Value.int 0)] [[("x", Value.int 1)]] .zeroDivision (by rfl) (by simp) rfl
